import Mathlib

/-!
Shallow embedding of `chaospy/orthogonal/lagrange.py` (`lagrange_polynomial`)
over exact rationals, together with proofs about the embedded code.

Numpy floating point arrays are modelled as matrices over `ℚ`; the external
dense linear-algebra primitives (`numpy.linalg.det`, `numpy.linalg.inv`) are
modelled by Mathlib's `Matrix.det` and by `det⁻¹ • adjugate`.  Multivariate
numpoly polynomials are modelled as lists of (exponent, coefficient) terms.
-/

namespace Chaospy

/-! ## Cyclic rolls and the trailing minor (size ≥ 3 cofactor scheme) -/

/-- `numpy.roll(matrix, -1, axis=0)`: every row moves up by one, cyclically. -/
def rollRows {n : ℕ} (M : Matrix (Fin n) (Fin n) ℚ) : Matrix (Fin n) (Fin n) ℚ :=
  fun r c => M ⟨(r.val + 1) % n, Nat.mod_lt _ r.pos⟩ c

/-- `numpy.roll(matrix, -1, axis=1)`: every column moves left by one, cyclically. -/
def rollCols {n : ℕ} (M : Matrix (Fin n) (Fin n) ℚ) : Matrix (Fin n) (Fin n) ℚ :=
  fun r c => M r ⟨(c.val + 1) % n, Nat.mod_lt _ c.pos⟩

/-- `matrix[1:, 1:]`: the trailing `(n-1) × (n-1)` submatrix. -/
def trailingMinor {n : ℕ} (M : Matrix (Fin n) (Fin n) ℚ) :
    Matrix (Fin (n - 1)) (Fin (n - 1)) ℚ :=
  fun r c => M ⟨r.val + 1, by have := r.isLt; omega⟩ ⟨c.val + 1, by have := c.isLt; omega⟩

/-- Loop state of the `size >= 3` branch: the running parity flag `k`, the
working (cyclically rolled) matrix, and the accumulated coefficient matrix. -/
structure SchemeSt (n : ℕ) where
  k : ℕ
  mat : Matrix (Fin n) (Fin n) ℚ
  coeffs : Matrix (Fin n) (Fin n) ℚ

/-- `coeffs[i, j] += x` (no-op positions untouched). -/
def updAdd {n : ℕ} (C : Matrix (Fin n) (Fin n) ℚ) (i j : ℕ) (x : ℚ) :
    Matrix (Fin n) (Fin n) ℚ :=
  fun a b => if a.val = i ∧ b.val = j then C a b + x else C a b

/-- The signed cofactor contribution of one inner-loop iteration, as written in
the source: `+det(minor)` when `k` is even, else `-det(minor)` when `size` is
even, else `+det(minor)`. -/
def contribAt (n : ℕ) (k : ℕ) (M : Matrix (Fin n) (Fin n) ℚ) : ℚ :=
  if k % 2 = 0 then (trailingMinor M).det
  else if n % 2 = 0 then -(trailingMinor M).det
  else (trailingMinor M).det

/-- Body of the inner `for j in range(size)` loop at row-phase `i`, column `j`:
accumulate the signed trailing-minor determinant, roll the rows up by one,
increment `k`. -/
def cellStep (n : ℕ) (i j : ℕ) (st : SchemeSt n) : SchemeSt n :=
  { k := st.k + 1
    mat := rollRows st.mat
    coeffs := updAdd st.coeffs i j (contribAt n st.k st.mat) }

/-- Run the first `t` iterations of the inner loop of row-phase `i`. -/
def cellsRun (n : ℕ) (i : ℕ) : ℕ → SchemeSt n → SchemeSt n
  | 0, st => st
  | t + 1, st => cellStep n i t (cellsRun n i t st)

/-- `k = 1 if i % 2 != 0 else 0`. -/
def kInit (i : ℕ) : ℕ := if i % 2 ≠ 0 then 1 else 0

/-- One full row-phase `i`: reset `k` from the parity of `i`, run all `n`
columns, then roll the columns by one. -/
def phaseStep (n : ℕ) (i : ℕ) (st : SchemeSt n) : SchemeSt n :=
  let st2 := cellsRun n i n { st with k := kInit i }
  { st2 with mat := rollCols st2.mat }

/-- Run the first `t` row-phases of the `size >= 3` scheme, starting from the
Vandermonde matrix `M` and an all-zero coefficient matrix. -/
def phasesRun (n : ℕ) (M : Matrix (Fin n) (Fin n) ℚ) : ℕ → SchemeSt n
  | 0 => ⟨0, M, fun _ _ => 0⟩
  | t + 1 => phaseStep n t (phasesRun n M t)

/-- The coefficient matrix accumulated by the cyclic-roll cofactor scheme,
before the final division by the determinant. -/
def schemeCoeffs (n : ℕ) (M : Matrix (Fin n) (Fin n) ℚ) : Matrix (Fin n) (Fin n) ℚ :=
  (phasesRun n M n).coeffs

/-- `coeffs /= det`: the coefficient matrix after the final division. -/
def schemeCoeffsDiv (n : ℕ) (M : Matrix (Fin n) (Fin n) ℚ) : Matrix (Fin n) (Fin n) ℚ :=
  fun a b => schemeCoeffs n M a b / M.det

/-! ## Order selection (`while comb(order+dim, dim) < size: order += 1`) -/

/-- The `while` loop of the order selector, with an explicit iteration budget.
`selectOrderCorrect` below proves the budget is never exhausted, i.e. the
source's unbounded loop terminates with the same result. -/
def orderSearch (dim size : ℕ) : ℕ → ℕ → ℕ
  | 0, order => order
  | fuel + 1, order =>
    if Nat.choose (order + dim) dim < size then orderSearch dim size fuel (order + 1)
    else order

/-- `order = 1; while comb(order+dim, dim) < size: order += 1`. -/
def selectOrder (dim size : ℕ) : ℕ := orderSearch dim size size 1

/-! ## The spec-modelled exponent enumerator (`numpoly.glexindex`) -/

/-- Lexicographic comparison of equal-length exponent lists. -/
def lexLe : List ℕ → List ℕ → Bool
  | [], [] => true
  | [], _ => true
  | _, [] => false
  | a :: as, b :: bs => if a < b then true else if b < a then false else lexLe as bs

/-- Modelled from the spec: the total order on multi-indices used by the
exponent enumerator — degree first when `graded`, then (reverse)
lexicographic comparison. -/
def idxLe (graded rev : Bool) (a b : List ℕ) : Bool :=
  let a' := if rev then a.reverse else a
  let b' := if rev then b.reverse else b
  if graded then
    if a.sum < b.sum then true
    else if b.sum < a.sum then false
    else lexLe a' b'
  else lexLe a' b'

/-- Insert into a sorted list (insertion sort step). -/
def insertOrd (le : List ℕ → List ℕ → Bool) (x : List ℕ) : List (List ℕ) → List (List ℕ)
  | [] => [x]
  | y :: ys => if le x y then x :: y :: ys else y :: insertOrd le x ys

/-- Insertion sort by the given comparison. -/
def sortOrd (le : List ℕ → List ℕ → Bool) : List (List ℕ) → List (List ℕ)
  | [] => []
  | x :: xs => insertOrd le x (sortOrd le xs)

/-- All length-`dim` lists of naturals with sum exactly `t`. -/
def compositionsAux : ℕ → ℕ → List (List ℕ)
  | 0, 0 => [[]]
  | 0, _ + 1 => []
  | d + 1, t => (List.range (t + 1)).flatMap fun a => (compositionsAux d (t - a)).map (a :: ·)

/-- Modelled from the spec: `numpoly.glexindex(0, upper, dimensions=dim,
graded=graded, reverse=reverse)` — the ordered sequence of all multi-indices
with total degree in `[0, upper)`, sorted according to the toggles.  This
collaborator is not part of the repository source; only its contract is. -/
def glexindexModel (upper dim : ℕ) (graded rev : Bool) : List (List ℕ) :=
  sortOrd (idxLe graded rev) ((List.range upper).flatMap (compositionsAux dim))

/-! ## Vandermonde matrix (`numpy.prod(abscissas.T[idx]**indices[idy], -1)`) -/

/-- `abscissas.T`. -/
def abscissasT {dim size : ℕ} (A : Fin dim → Fin size → ℚ) : Fin size → Fin dim → ℚ :=
  fun i k => A k i

/-- The generalized Vandermonde matrix: entry `(i, j)` is the product over
dimensions `k` of `abscissas.T[i, k] ** indices[j, k]`. -/
def vandermonde (dim size : ℕ) (A : Fin dim → Fin size → ℚ) (idx : Fin size → Fin dim → ℕ) :
    Matrix (Fin size) (Fin size) ℚ :=
  fun i j => ∏ k : Fin dim, abscissasT A i k ^ idx j k

/-! ## Polynomials (numpoly arrays modelled as term lists) -/

/-- A multivariate polynomial in `dim` variables: a list of
(exponent multi-index, rational coefficient) terms. -/
abbrev Poly (dim : ℕ) := List ((Fin dim → ℕ) × ℚ)

/-- Evaluate a polynomial at a point. -/
def evalPoly {dim : ℕ} (p : Poly dim) (x : Fin dim → ℚ) : ℚ :=
  (p.map fun t => t.2 * ∏ k : Fin dim, x k ^ t.1 k).sum

/-- Multiply a polynomial by a scalar. -/
def polyScale {dim : ℕ} (c : ℚ) (p : Poly dim) : Poly dim :=
  p.map fun t => (t.1, t.2 * c)

/-- Modelled from the spec: `chaospy.poly.basis(0, order, dim)[:size]` — the
monomial basis vector, ordered identically to the exponent set (§4.2/§6
require the two collaborators to be order-compatible). -/
def basisVec (dim size : ℕ) (idx : Fin size → Fin dim → ℕ) : Fin size → Poly dim :=
  fun j => [(idx j, 1)]

/-- Modelled from the spec: `chaospy.poly.basis(0, 0, dim)` — the single
degree-0 monomial, i.e. the constant polynomial 1. -/
def constBasis (dim : ℕ) : Poly dim := [(fun _ => 0, 1)]

/-- `chaospy.poly.sum(vec*(coeffs.T), 1)`: entry `(i, j)` of the intermediate
array is `vec[j] * coeffs.T[i, j]`, then polynomials are summed along axis 1. -/
def assemble (dim size : ℕ) (vec : Fin size → Poly dim)
    (coeffs : Matrix (Fin size) (Fin size) ℚ) : List (Poly dim) :=
  List.ofFn fun i : Fin size =>
    ((List.finRange size).map fun j => polyScale (coeffs.transpose i j) (vec j)).flatten

/-! ## The embedded `lagrange_polynomial` -/

/-- The two failure kinds: the `LinAlgError` raised on a zero determinant, and
the `ValueError` raised by `abscissas.item()` on an array of more than one
element (reachable for `size == 1`, `dim >= 2`). -/
inductive LagrangeError
  | singular
  | scalarConversion
deriving DecidableEq

/-- `numpoly.glexindex(0, order+1, dimensions=dim, ...)[:size]`, as a function
giving exponent `k` of selected multi-index `j`. -/
def lagrangeIndices (dim size : ℕ) (graded rev : Bool) : Fin size → Fin dim → ℕ :=
  fun j k =>
    ((((glexindexModel (selectOrder dim size + 1) dim graded rev).take size).getD j.val
        []).getD k.val 0)

/-- `numpy.linalg.inv` (external dense primitive), modelled by the adjugate
formula for the inverse. -/
def matInv (n : ℕ) (M : Matrix (Fin n) (Fin n) ℚ) : Matrix (Fin n) (Fin n) ℚ :=
  (M.det)⁻¹ • M.adjugate

/-- The embedding of `lagrange_polynomial` for a `(dim, size)` abscissa array
(a 1-D input of length `size` corresponds to `dim = 1`). -/
def lagrange_polynomial (dim size : ℕ) (abscissas : Fin dim → Fin size → ℚ)
    (graded rev : Bool) : Except LagrangeError (List (Poly dim)) :=
  let idx := lagrangeIndices dim size graded rev
  let matrix := vandermonde dim size abscissas idx
  if matrix.det = 0 then .error .singular
  else if h1 : size = 1 then
    if hd : dim = 1 then
      .ok [polyScale (abscissas ⟨0, by omega⟩ ⟨0, by omega⟩) (constBasis dim)]
    else .error .scalarConversion
  else
    let vec := basisVec dim size idx
    let coeffs := if size = 2 then matInv size matrix else schemeCoeffsDiv size matrix
    .ok (assemble dim size vec coeffs)

/-- The polynomial list returned on success (`[]` on failure). -/
def lagrangeOut (dim size : ℕ) (abscissas : Fin dim → Fin size → ℚ)
    (graded rev : Bool) : List (Poly dim) :=
  ((lagrange_polynomial dim size abscissas graded rev).toOption).getD []

/-! ## Concrete test data and the spec-worded variants used by the claims -/

/-- Sample points `-1, 0, 1` on the line (the docstring's size-3 example). -/
def ptsThree : Fin 1 → Fin 3 → ℚ := fun _ j => (j.val : ℚ) - 1

/-- An invertible 3×3 test matrix. -/
def mPhase : Matrix (Fin 3) (Fin 3) ℚ := !![1, 2, 0; 0, 1, 0; 0, 0, 1]

/-- The roll schedule as the spec sentence words it: rows rolled up by one and
columns rolled left by one, both once per completed row-phase. -/
def specPhaseRoll {n : ℕ} (M : Matrix (Fin n) (Fin n) ℚ) : Matrix (Fin n) (Fin n) ℚ :=
  rollCols (rollRows M)

/-- A 3×3 matrix with distinct entries. -/
def mDistinct : Matrix (Fin 3) (Fin 3) ℚ := !![0, 1, 2; 3, 4, 5; 6, 7, 8]

/-- The assembler as the claim words it: output `i` weighted by row `i` of the
coefficient matrix. -/
def rowAssemble (dim size : ℕ) (vec : Fin size → Poly dim)
    (coeffs : Matrix (Fin size) (Fin size) ℚ) : List (Poly dim) :=
  List.ofFn fun i : Fin size =>
    ((List.finRange size).map fun j => polyScale (coeffs i j) (vec j)).flatten

/-! ## Loop invariants of the cyclic-roll cofactor scheme -/

lemma rollRows_iterate {n : ℕ} (t : ℕ) (M : Matrix (Fin n) (Fin n) ℚ) (r c : Fin n) :
    (rollRows^[t] M) r c = M ⟨(r.val + t) % n, Nat.mod_lt _ r.pos⟩ c := by
  induction t generalizing M with
  | zero => simp [Nat.mod_eq_of_lt r.isLt]
  | succ t ih =>
    rw [Function.iterate_succ_apply, ih]
    show M _ c = M _ c
    congr 1
    apply Fin.ext
    show ((r.val + t) % n + 1) % n = (r.val + (t + 1)) % n
    rw [Nat.mod_add_mod]
    congr 1

lemma rollCols_iterate {n : ℕ} (t : ℕ) (M : Matrix (Fin n) (Fin n) ℚ) (r c : Fin n) :
    (rollCols^[t] M) r c = M r ⟨(c.val + t) % n, Nat.mod_lt _ c.pos⟩ := by
  induction t generalizing M with
  | zero => simp [Nat.mod_eq_of_lt c.isLt]
  | succ t ih =>
    rw [Function.iterate_succ_apply, ih]
    show M r _ = M r _
    congr 1
    apply Fin.ext
    show ((c.val + t) % n + 1) % n = (c.val + (t + 1)) % n
    rw [Nat.mod_add_mod]
    congr 1

lemma rollRows_iterate_n {n : ℕ} (M : Matrix (Fin n) (Fin n) ℚ) :
    rollRows^[n] M = M := by
  funext r c
  rw [rollRows_iterate]
  congr 1
  apply Fin.ext
  show (r.val + n) % n = r.val
  rw [Nat.add_mod_right, Nat.mod_eq_of_lt r.isLt]

/-- The working matrix at inner step `t` of a phase from state `st`:
rows rolled up once per processed cell. -/
lemma cellsRun_mat {n : ℕ} (i t : ℕ) (st : SchemeSt n) :
    (cellsRun n i t st).mat = rollRows^[t] st.mat := by
  induction t with
  | zero => rfl
  | succ t ih =>
    show (cellStep n i t (cellsRun n i t st)).mat = _
    rw [Function.iterate_succ_apply']
    show rollRows (cellsRun n i t st).mat = _
    rw [ih]

/-- The running flag `k` increments once per processed cell. -/
lemma cellsRun_k {n : ℕ} (i t : ℕ) (st : SchemeSt n) :
    (cellsRun n i t st).k = st.k + t := by
  induction t with
  | zero => rfl
  | succ t ih =>
    show (cellStep n i t (cellsRun n i t st)).k = _
    show (cellsRun n i t st).k + 1 = _
    rw [ih]
    omega

/-- Accumulated coefficients after `t` inner steps of row-phase `i`. -/
lemma cellsRun_coeffs {n : ℕ} (i t : ℕ) (st : SchemeSt n) (a b : Fin n) :
    (cellsRun n i t st).coeffs a b =
      st.coeffs a b +
        (if a.val = i ∧ b.val < t then contribAt n (st.k + b.val) (rollRows^[b.val] st.mat)
         else 0) := by
  induction t with
  | zero => simp [cellsRun]
  | succ t ih =>
    show (cellStep n i t (cellsRun n i t st)).coeffs a b = _
    show updAdd (cellsRun n i t st).coeffs i t
      (contribAt n (cellsRun n i t st).k (cellsRun n i t st).mat) a b = _
    rw [updAdd, cellsRun_k, cellsRun_mat, ih]
    by_cases hab : a.val = i ∧ b.val = t
    · obtain ⟨ha, hb⟩ := hab
      have hbt : ¬ (a.val = i ∧ b.val < t) := by omega
      have hbt1 : a.val = i ∧ b.val < t + 1 := by omega
      rw [if_pos ⟨ha, hb⟩, if_neg hbt, if_pos hbt1, hb]
      ring
    · rw [if_neg hab]
      by_cases hlt : a.val = i ∧ b.val < t
      · have : a.val = i ∧ b.val < t + 1 := by omega
        rw [if_pos hlt, if_pos this]
      · have : ¬ (a.val = i ∧ b.val < t + 1) := by omega
        rw [if_neg hlt, if_neg this]

/-- At the start of row-phase `t` the working matrix is the original matrix
with the columns rolled left `t` times (the rows have realigned). -/
lemma phasesRun_mat {n : ℕ} (M : Matrix (Fin n) (Fin n) ℚ) (t : ℕ) :
    (phasesRun n M t).mat = rollCols^[t] M := by
  induction t with
  | zero => rfl
  | succ t ih =>
    show (phaseStep n t (phasesRun n M t)).mat = _
    show rollCols (cellsRun n t n { phasesRun n M t with k := kInit t }).mat = _
    rw [cellsRun_mat]
    show rollCols (rollRows^[n] (phasesRun n M t).mat) = _
    rw [rollRows_iterate_n, ih, Function.iterate_succ_apply']

/-- The coefficient matrix after `t` complete row-phases. -/
lemma phasesRun_coeffs {n : ℕ} (M : Matrix (Fin n) (Fin n) ℚ) (t : ℕ) (a b : Fin n) :
    (phasesRun n M t).coeffs a b =
      if a.val < t then
        contribAt n (kInit a.val + b.val) (rollRows^[b.val] (rollCols^[a.val] M))
      else 0 := by
  induction t with
  | zero => simp [phasesRun]
  | succ t ih =>
    show (phaseStep n t (phasesRun n M t)).coeffs a b = _
    show (cellsRun n t n { phasesRun n M t with k := kInit t }).coeffs a b = _
    rw [cellsRun_coeffs]
    show (phasesRun n M t).coeffs a b + _ = _
    rw [ih, phasesRun_mat]
    by_cases hat : a.val = t
    · have h1 : ¬ a.val < t := by omega
      have h2 : a.val < t + 1 := by omega
      rw [if_neg h1, if_pos ⟨hat, b.isLt⟩, if_pos h2, hat]
      ring
    · by_cases hlt : a.val < t
      · have h2 : a.val < t + 1 := by omega
        rw [if_pos hlt, if_neg (by omega), if_pos h2]
        ring
      · have h2 : ¬ a.val < t + 1 := by omega
        rw [if_neg hlt, if_neg (by omega), if_neg h2]
        ring

/-- Closed form of the scheme: each coefficient cell is written exactly once,
with the signed determinant of the trailing minor of the rolled matrix. -/
lemma schemeCoeffs_closed {n : ℕ} (M : Matrix (Fin n) (Fin n) ℚ) (a b : Fin n) :
    schemeCoeffs n M a b =
      contribAt n (kInit a.val + b.val) (rollRows^[b.val] (rollCols^[a.val] M)) := by
  rw [schemeCoeffs, phasesRun_coeffs, if_pos a.isLt]


lemma finRotate_pow_apply {m : ℕ} (k : ℕ) (x : Fin (m + 1)) :
    ((finRotate (m + 1)) ^ k) x = x + (k : Fin (m + 1)) := by
  induction k generalizing x with
  | zero => simp
  | succ k ih =>
    rw [pow_succ, Equiv.Perm.mul_apply, finRotate_succ_apply, ih, Nat.cast_add, Nat.cast_one]
    ring

lemma addRight_eq_pow {m : ℕ} (a : Fin (m + 1)) :
    Equiv.addRight a = (finRotate (m + 1)) ^ a.val := by
  ext x
  rw [finRotate_pow_apply, Fin.cast_val_eq_self]
  rfl

lemma sign_addRight {m : ℕ} (a : Fin (m + 1)) :
    Equiv.Perm.sign (Equiv.addRight a) = (-1 : ℤˣ) ^ (m * a.val) := by
  rw [addRight_eq_pow, map_pow, sign_finRotate, ← pow_mul]

lemma det_submatrix_perm_perm {N : Type*} [DecidableEq N] [Fintype N]
    (A : Matrix N N ℚ) (σ τ : Equiv.Perm N) :
    (A.submatrix σ τ).det =
      ((Equiv.Perm.sign σ : ℤ) : ℚ) * ((Equiv.Perm.sign τ : ℤ) : ℚ) * A.det := by
  have h1 : A.submatrix σ τ = (A.submatrix id τ).submatrix σ id := rfl
  rw [h1, Matrix.det_permute, Matrix.det_permute']
  ring

lemma succAbove_rot {m : ℕ} (j : Fin (m + 2)) (r : Fin (m + 1)) :
    (j.succAbove (r + ⟨j.val % (m + 1), Nat.mod_lt _ m.succ_pos⟩)).val
      = (r.val + 1 + j.val) % (m + 2) := by
  have hr := r.isLt
  have hj := j.isLt
  set s : Fin (m + 1) := r + ⟨j.val % (m + 1), Nat.mod_lt _ m.succ_pos⟩ with hs
  have hsv : s.val = (r.val + j.val % (m + 1)) % (m + 1) := by
    rw [hs, Fin.val_add]
  have hsc : (Fin.castSucc s).val = s.val := rfl
  have hss : (Fin.succ s).val = s.val + 1 := rfl
  rcases Nat.lt_or_ge j.val (m + 1) with hj1 | hj1
  · have hjm : j.val % (m + 1) = j.val := Nat.mod_eq_of_lt hj1
    rcases Nat.lt_or_ge (r.val + j.val) (m + 1) with hw | hw
    · -- no wrap: s.val = r + j, and j ≤ castSucc s, so succAbove = succ s
      have hv : s.val = r.val + j.val := by rw [hsv, hjm, Nat.mod_eq_of_lt hw]
      have hle : j ≤ Fin.castSucc s := by
        rw [Fin.le_def, hsc, hv]; omega
      rw [Fin.succAbove_of_le_castSucc _ _ hle, hss, hv]
      rw [Nat.mod_eq_of_lt (by omega)]
      omega
    · -- wrap: s.val = r + j - (m+1) < j, so succAbove = castSucc s
      have hv : s.val = r.val + j.val - (m + 1) := by
        rw [hsv, hjm, Nat.mod_eq_sub_mod hw, Nat.mod_eq_of_lt (by omega)]
      have hlt : Fin.castSucc s < j := by
        rw [Fin.lt_def, hsc, hv]; omega
      rw [Fin.succAbove_of_castSucc_lt _ _ hlt, hsc, hv]
      rw [Nat.mod_eq_sub_mod (by omega), Nat.mod_eq_of_lt (by omega)]
      omega
  · -- j.val = m + 1: the rotation is trivial; succAbove = castSucc s; wraps mod m+2
    have hje : j.val = m + 1 := by omega
    have hjz : j.val % (m + 1) = 0 := by rw [hje, Nat.mod_self]
    have hv : s.val = r.val := by
      rw [hsv, hjz, Nat.add_zero, Nat.mod_eq_of_lt hr]
    have hlt : Fin.castSucc s < j := by
      rw [Fin.lt_def, hsc, hv]; omega
    rw [Fin.succAbove_of_castSucc_lt _ _ hlt, hsc, hv]
    rw [Nat.mod_eq_sub_mod (by omega), Nat.mod_eq_of_lt (by omega)]
    omega

/-- The trailing minor of the rolled working matrix at cell `(i, j)` is the
minor of `M` omitting row `j` and column `i`, with its rows and columns
cyclically rotated. -/
lemma trailing_work_eq_submatrix {m : ℕ} (M : Matrix (Fin (m + 2)) (Fin (m + 2)) ℚ)
    (i j : Fin (m + 2)) (h11 : m + 1 = m + 2 - 1) :
    (trailingMinor (rollRows^[j.val] (rollCols^[i.val] M))).submatrix
        (finCongr h11) (finCongr h11)
      = (M.submatrix j.succAbove i.succAbove).submatrix
          (Equiv.addRight (⟨j.val % (m + 1), Nat.mod_lt _ m.succ_pos⟩ : Fin (m + 1)))
          (Equiv.addRight (⟨i.val % (m + 1), Nat.mod_lt _ m.succ_pos⟩ : Fin (m + 1))) := by
  funext r c
  have hrb : r.val + 1 < m + 2 := by have := r.isLt; omega
  have hcb : c.val + 1 < m + 2 := by have := c.isLt; omega
  show (rollRows^[j.val] (rollCols^[i.val] M)) ⟨r.val + 1, hrb⟩ ⟨c.val + 1, hcb⟩ = _
  rw [rollRows_iterate, rollCols_iterate]
  have haR : ∀ (a x : Fin (m + 1)), (Equiv.addRight a) x = x + a := fun _ _ => rfl
  show M _ _ = M (j.succAbove ((Equiv.addRight _) r)) (i.succAbove ((Equiv.addRight _) c))
  rw [haR, haR]
  congr 1
  · apply Fin.ext
    rw [succAbove_rot]
  · apply Fin.ext
    rw [succAbove_rot]

lemma det_trailing_work {m : ℕ} (M : Matrix (Fin (m + 2)) (Fin (m + 2)) ℚ)
    (i j : Fin (m + 2)) :
    (trailingMinor (rollRows^[j.val] (rollCols^[i.val] M))).det
      = ((-1 : ℚ)) ^ (m * (j.val % (m + 1)) + m * (i.val % (m + 1)))
        * (M.submatrix j.succAbove i.succAbove).det := by
  have h11 : m + 1 = m + 2 - 1 := rfl
  rw [← Matrix.det_submatrix_equiv_self (finCongr h11)
      (trailingMinor (rollRows^[j.val] (rollCols^[i.val] M)))]
  rw [trailing_work_eq_submatrix M i j h11, det_submatrix_perm_perm, sign_addRight,
    sign_addRight]
  simp only [Units.val_pow_eq_pow_val, Units.val_neg, Units.val_one,
    Int.cast_pow, Int.cast_neg, Int.cast_one]
  rw [← pow_add]

lemma kInit_eq_mod (i : ℕ) : kInit i = i % 2 := by
  rcases Nat.mod_two_eq_zero_or_one i with h | h <;> simp [kInit, h]

lemma neg_one_pow_cases (t : ℕ) : ((-1 : ℚ)) ^ t = if t % 2 = 0 then 1 else -1 := by
  rcases Nat.even_or_odd t with h | h
  · rw [h.neg_one_pow, if_pos (Nat.even_iff.mp h)]
  · rw [h.neg_one_pow, if_neg (by rw [Nat.odd_iff.mp h]; omega)]

lemma parity_rot (m x : ℕ) : (m * (x % (m + 1))) % 2 = (m * x) % 2 := by
  conv_rhs => rw [← Nat.div_add_mod x (m + 1)]
  rw [Nat.mul_add, ← Nat.mul_assoc]
  have h2 : (m * (m + 1) * (x / (m + 1))) % 2 = 0 := by
    have he : Even (m * (m + 1)) := Nat.even_mul_succ_self m
    exact Nat.even_iff.mp (he.mul_right (x / (m + 1)))
  omega

/-- The central refinement fact: the cyclic-roll cofactor scheme computes
exactly the adjugate matrix. -/
lemma scheme_eq_adjugate {m : ℕ} (M : Matrix (Fin (m + 2)) (Fin (m + 2)) ℚ)
    (a b : Fin (m + 2)) :
    schemeCoeffs (m + 2) M a b = M.adjugate a b := by
  rw [schemeCoeffs_closed, Matrix.adjugate_fin_succ_eq_det_submatrix]
  simp only [contribAt, det_trailing_work]
  have hk : (kInit a.val + b.val) % 2 = (a.val + b.val) % 2 := by
    rw [kInit_eq_mod]; omega
  have p1 : (m * (b.val % (m + 1))) % 2 = (m * b.val) % 2 := parity_rot m b.val
  have p2 : (m * (a.val % (m + 1))) % 2 = (m * a.val) % 2 := parity_rot m a.val
  have hmul : (m * b.val + m * a.val) % 2 = (m * (a.val + b.val)) % 2 := by
    rw [Nat.mul_add]; omega
  have hprod : (m * (a.val + b.val)) % 2 = (m % 2 * ((a.val + b.val) % 2)) % 2 :=
    Nat.mul_mod m (a.val + b.val) 2
  rcases Nat.mod_two_eq_zero_or_one (a.val + b.val) with hE | hE <;>
    rcases Nat.mod_two_eq_zero_or_one m with hP | hP
  · -- a+b even, m even
    rw [hE, hP] at hprod
    norm_num at hprod
    rw [if_pos (by omega)]
    rw [show ((-1 : ℚ)) ^ (m * (b.val % (m + 1)) + m * (a.val % (m + 1))) = 1 by
      rw [neg_one_pow_cases, if_pos (by omega)]]
    rw [show ((-1 : ℚ)) ^ (b.val + a.val) = 1 by
      rw [neg_one_pow_cases, if_pos (by omega)]]
  · -- a+b even, m odd
    rw [hE, hP] at hprod
    norm_num at hprod
    rw [if_pos (by omega)]
    rw [show ((-1 : ℚ)) ^ (m * (b.val % (m + 1)) + m * (a.val % (m + 1))) = 1 by
      rw [neg_one_pow_cases, if_pos (by omega)]]
    rw [show ((-1 : ℚ)) ^ (b.val + a.val) = 1 by
      rw [neg_one_pow_cases, if_pos (by omega)]]
  · -- a+b odd, m even: the source applies -1; the rotation sign is +1
    rw [hE, hP] at hprod
    norm_num at hprod
    rw [if_neg (by omega), if_pos (by omega : (m + 2) % 2 = 0)]
    rw [show ((-1 : ℚ)) ^ (m * (b.val % (m + 1)) + m * (a.val % (m + 1))) = 1 by
      rw [neg_one_pow_cases, if_pos (by omega)]]
    rw [show ((-1 : ℚ)) ^ (b.val + a.val) = -1 by
      rw [neg_one_pow_cases, if_neg (by omega)]]
    ring
  · -- a+b odd, m odd: the source applies +1; the rotation sign is -1
    rw [hE, hP] at hprod
    norm_num at hprod
    rw [if_neg (by omega), if_neg (by omega : ¬ (m + 2) % 2 = 0)]
    rw [show ((-1 : ℚ)) ^ (m * (b.val % (m + 1)) + m * (a.val % (m + 1))) = -1 by
      rw [neg_one_pow_cases, if_neg (by omega)]]
    rw [show ((-1 : ℚ)) ^ (b.val + a.val) = -1 by
      rw [neg_one_pow_cases, if_neg (by omega)]]

/-! ## Polynomial evaluation lemmas -/

lemma evalPoly_append {dim : ℕ} (p q : Poly dim) (x : Fin dim → ℚ) :
    evalPoly (p ++ q) x = evalPoly p x + evalPoly q x := by
  simp [evalPoly]

lemma evalPoly_flatten {dim : ℕ} (L : List (Poly dim)) (x : Fin dim → ℚ) :
    evalPoly L.flatten x = (L.map fun p => evalPoly p x).sum := by
  induction L with
  | nil => rfl
  | cons p L ih => rw [List.flatten_cons, evalPoly_append, ih, List.map_cons, List.sum_cons]

lemma evalPoly_polyScale {dim : ℕ} (c : ℚ) (p : Poly dim) (x : Fin dim → ℚ) :
    evalPoly (polyScale c p) x = evalPoly p x * c := by
  simp only [evalPoly, polyScale, List.map_map]
  induction p with
  | nil => simp
  | cons t p ih =>
    simp only [List.map_cons, List.sum_cons, Function.comp_apply] at ih ⊢
    rw [ih]
    ring

lemma evalPoly_basisVec {dim size : ℕ} (idx : Fin size → Fin dim → ℕ) (j : Fin size)
    (x : Fin dim → ℚ) :
    evalPoly (basisVec dim size idx j) x = ∏ k : Fin dim, x k ^ idx j k := by
  simp [basisVec, evalPoly]

/-- Evaluating the `i`-th assembled output polynomial: the sum over `j` of
`basis[j]` evaluated at `x`, weighted by column `i` of the coefficient
matrix. -/
lemma evalPoly_assemble {dim size : ℕ} (vec : Fin size → Poly dim)
    (coeffs : Matrix (Fin size) (Fin size) ℚ) (i : Fin size) (x : Fin dim → ℚ) :
    evalPoly ((assemble dim size vec coeffs).getD i.val []) x
      = ∑ j : Fin size, evalPoly (vec j) x * coeffs j i := by
  have hget : (assemble dim size vec coeffs).getD i.val []
      = ((List.finRange size).map fun j =>
          polyScale (coeffs.transpose i j) (vec j)).flatten := by
    rw [assemble, List.getD_eq_getElem?_getD]
    rw [List.getElem?_ofFn]
    simp [List.ofFnNthVal, i.isLt]
  rw [hget, evalPoly_flatten, List.map_map]
  rw [← Fin.sum_univ_def]
  refine Finset.sum_congr rfl fun j _ => ?_
  simp [evalPoly_polyScale, Matrix.transpose_apply]

lemma assemble_length {dim size : ℕ} (vec : Fin size → Poly dim)
    (coeffs : Matrix (Fin size) (Fin size) ℚ) :
    (assemble dim size vec coeffs).length = size := by
  rw [assemble, List.length_ofFn]

/-! ## Correctness of the coefficient matrix and the delta property -/

lemma schemeCoeffsDiv_eq_smul_adjugate {n : ℕ} (hn : 2 ≤ n)
    (M : Matrix (Fin n) (Fin n) ℚ) :
    schemeCoeffsDiv n M = (M.det)⁻¹ • M.adjugate := by
  obtain ⟨m, rfl⟩ : ∃ m, n = m + 2 := ⟨n - 2, by omega⟩
  funext a b
  show schemeCoeffs (m + 2) M a b / M.det = _
  rw [scheme_eq_adjugate, Matrix.smul_apply, smul_eq_mul, div_eq_mul_inv, mul_comm]

lemma mul_inv_coeffs {n : ℕ} (V : Matrix (Fin n) (Fin n) ℚ) (hdet : V.det ≠ 0) :
    V * ((V.det)⁻¹ • V.adjugate) = 1 := by
  rw [Matrix.mul_smul, Matrix.mul_adjugate, smul_smul, inv_mul_cancel₀ hdet, one_smul]

/-- Either non-trivial branch of the coefficient solver produces
`det⁻¹ • adjugate`, i.e. the matrix inverse. -/
lemma lagrange_coeffs_correct {n : ℕ} (hn : 2 ≤ n) (V : Matrix (Fin n) (Fin n) ℚ) :
    (if n = 2 then matInv n V else schemeCoeffsDiv n V) = (V.det)⁻¹ • V.adjugate := by
  by_cases h2 : n = 2
  · rw [if_pos h2, matInv]
  · rw [if_neg h2, schemeCoeffsDiv_eq_smul_adjugate hn]

/-- For `size ≥ 2` and a non-singular Vandermonde matrix the function
returns the assembled polynomial list. -/
lemma lagrange_ok_of {dim size : ℕ} (A : Fin dim → Fin size → ℚ) (g r : Bool)
    (h2 : 2 ≤ size)
    (hdet : (vandermonde dim size A (lagrangeIndices dim size g r)).det ≠ 0) :
    lagrange_polynomial dim size A g r
      = .ok (assemble dim size (basisVec dim size (lagrangeIndices dim size g r))
          (if size = 2 then matInv size (vandermonde dim size A (lagrangeIndices dim size g r))
           else schemeCoeffsDiv size (vandermonde dim size A (lagrangeIndices dim size g r)))) := by
  rw [lagrange_polynomial]
  rw [if_neg hdet, dif_neg (by omega : ¬ size = 1)]

lemma lagrangeOut_of_ok {dim size : ℕ} (A : Fin dim → Fin size → ℚ) (g r : Bool)
    (L : List (Poly dim)) (h : lagrange_polynomial dim size A g r = .ok L) :
    lagrangeOut dim size A g r = L := by
  rw [lagrangeOut, h]
  rfl

/-- The delta property of the assembled output, for `size ≥ 2`. -/
lemma lagrange_delta {dim size : ℕ} (A : Fin dim → Fin size → ℚ) (g r : Bool)
    (h2 : 2 ≤ size)
    (hdet : (vandermonde dim size A (lagrangeIndices dim size g r)).det ≠ 0)
    (i j : Fin size) :
    evalPoly ((lagrangeOut dim size A g r).getD i.val []) (fun k => A k j)
      = if i = j then 1 else 0 := by
  rw [lagrangeOut_of_ok A g r _ (lagrange_ok_of A g r h2 hdet), evalPoly_assemble]
  have hb : ∀ t : Fin size,
      evalPoly (basisVec dim size (lagrangeIndices dim size g r) t) (fun k => A k j)
        = vandermonde dim size A (lagrangeIndices dim size g r) j t := by
    intro t
    rw [evalPoly_basisVec]
    rfl
  rw [Finset.sum_congr rfl fun t _ => by rw [hb t]]
  rw [show ∑ t : Fin size,
        vandermonde dim size A (lagrangeIndices dim size g r) j t *
          (if size = 2 then matInv size (vandermonde dim size A (lagrangeIndices dim size g r))
           else schemeCoeffsDiv size (vandermonde dim size A (lagrangeIndices dim size g r))) t i
      = (vandermonde dim size A (lagrangeIndices dim size g r) *
          (if size = 2 then matInv size (vandermonde dim size A (lagrangeIndices dim size g r))
           else schemeCoeffsDiv size (vandermonde dim size A (lagrangeIndices dim size g r)))) j i
    from (Matrix.mul_apply).symm]
  rw [lagrange_coeffs_correct h2, mul_inv_coeffs _ hdet, Matrix.one_apply]
  by_cases hij : i = j
  · rw [if_pos hij, if_pos hij.symm]
  · rw [if_neg hij, if_neg fun h => hij h.symm]

/-! ## Correctness of the order selector -/

lemma succ_le_choose (o d : ℕ) (hd : 0 < d) : o + 1 ≤ Nat.choose (o + d) d := by
  induction o with
  | zero =>
    have : Nat.choose (0 + d) d = 1 := by rw [Nat.zero_add, Nat.choose_self]
    omega
  | succ o ih =>
    obtain ⟨e, rfl⟩ : ∃ e, d = e + 1 := ⟨d - 1, by omega⟩
    have hix : o + (e + 1) = o + e + 1 := by omega
    rw [hix] at ih
    have key : Nat.choose (o + 1 + (e + 1)) (e + 1)
        = Nat.choose (o + e + 1) e + Nat.choose (o + e + 1) (e + 1) := by
      have h2 : o + 1 + (e + 1) = (o + e + 1) + 1 := by omega
      rw [h2, Nat.choose_succ_succ]
    have hpos : 0 < Nat.choose (o + e + 1) e := Nat.choose_pos (by omega)
    omega

lemma orderSearch_ge (dim size : ℕ) : ∀ fuel order, order ≤ orderSearch dim size fuel order := by
  intro fuel
  induction fuel with
  | zero => intro order; exact le_refl order
  | succ fuel ih =>
    intro order
    rw [orderSearch]
    by_cases h : Nat.choose (order + dim) dim < size
    · rw [if_pos h]
      exact le_trans (by omega) (ih (order + 1))
    · rw [if_neg h]

/-- Invariant of the `while` loop: if the exit condition is reachable within
the budget, the loop returns the least order at least the starting one that
satisfies it. -/
lemma orderSearch_correct (dim size : ℕ) :
    ∀ fuel order, size ≤ Nat.choose (order + fuel + dim) dim →
      size ≤ Nat.choose (orderSearch dim size fuel order + dim) dim ∧
        (∀ o, order ≤ o → size ≤ Nat.choose (o + dim) dim →
          orderSearch dim size fuel order ≤ o) := by
  intro fuel
  induction fuel with
  | zero =>
    intro order hP
    have h0 : order + 0 = order := by omega
    rw [h0] at hP
    exact ⟨hP, fun o ho _ => ho⟩
  | succ fuel ih =>
    intro order hP
    rw [orderSearch]
    by_cases h : Nat.choose (order + dim) dim < size
    · rw [if_pos h]
      have hP1 : size ≤ Nat.choose (order + 1 + fuel + dim) dim := by
        have : order + 1 + fuel = order + (fuel + 1) := by omega
        rw [this]
        exact hP
      obtain ⟨h1, h2⟩ := ih (order + 1) hP1
      refine ⟨h1, fun o ho hPo => ?_⟩
      by_cases ho1 : o = order
      · subst ho1
        omega
      · exact h2 o (by omega) hPo
    · rw [if_neg h]
      exact ⟨by omega, fun o ho _ => ho⟩

/-- `selectOrder` terminates and returns the least `order ≥ 1` whose monomial
count reaches `size`. -/
lemma selectOrder_correct (dim size : ℕ) (hd : 0 < dim) :
    1 ≤ selectOrder dim size ∧
      size ≤ Nat.choose (selectOrder dim size + dim) dim ∧
        ∀ o, 1 ≤ o → size ≤ Nat.choose (o + dim) dim → selectOrder dim size ≤ o := by
  have hbudget : size ≤ Nat.choose (1 + size + dim) dim := by
    have h1 := succ_le_choose (size + 1) dim hd
    have h2 : size + 1 + dim = 1 + size + dim := by omega
    rw [h2] at h1
    omega
  obtain ⟨h1, h2⟩ := orderSearch_correct dim size size 1 hbudget
  exact ⟨orderSearch_ge dim size size 1, h1, h2⟩

/-! ## The first selected multi-index is the all-zero one -/

lemma compositionsAux_zero (d : ℕ) : compositionsAux d 0 = [List.replicate d 0] := by
  induction d with
  | zero => rfl
  | succ d ih =>
    show (List.range 1).flatMap _ = _
    rw [show List.range 1 = [0] from rfl, List.flatMap_singleton]
    show (compositionsAux d (0 - 0)).map (0 :: ·) = _
    rw [Nat.zero_sub, ih, List.map_singleton, List.replicate_succ]

lemma length_of_mem_compositionsAux :
    ∀ d t l, l ∈ compositionsAux d t → l.length = d := by
  intro d
  induction d with
  | zero =>
    intro t l hl
    match t with
    | 0 =>
      rw [compositionsAux] at hl
      simp only [List.mem_singleton] at hl
      rw [hl]
      rfl
    | t + 1 =>
      rw [compositionsAux] at hl
      simp at hl
  | succ d ih =>
    intro t l hl
    rw [compositionsAux, List.mem_flatMap] at hl
    obtain ⟨a, _, hl2⟩ := hl
    rw [List.mem_map] at hl2
    obtain ⟨l', hl', rfl⟩ := hl2
    rw [List.length_cons, ih _ _ hl']

lemma mem_insertOrd (le : List ℕ → List ℕ → Bool) (x a : List ℕ) :
    ∀ l, (a ∈ insertOrd le x l ↔ a = x ∨ a ∈ l) := by
  intro l
  induction l with
  | nil => simp [insertOrd]
  | cons y ys ih =>
    rw [insertOrd]
    by_cases h : le x y = true
    · rw [if_pos h]
      simp [or_assoc]
    · rw [if_neg h]
      simp only [List.mem_cons, ih]
      tauto

lemma mem_sortOrd (le : List ℕ → List ℕ → Bool) (a : List ℕ) :
    ∀ l, (a ∈ sortOrd le l ↔ a ∈ l) := by
  intro l
  induction l with
  | nil => simp [sortOrd]
  | cons x xs ih =>
    rw [sortOrd, mem_insertOrd, ih]
    simp

/-- The head of an insertion sort is the least element, provided one exists
that is below everything and is the only element below itself. -/
lemma sortOrd_head_min (le : List ℕ → List ℕ → Bool) (z : List ℕ) :
    ∀ l, z ∈ l → (∀ y ∈ l, le z y = true) → (∀ y ∈ l, le y z = true → y = z) →
      (sortOrd le l).head? = some z := by
  intro l
  induction l with
  | nil => intro h; simp at h
  | cons x xs ih =>
    intro hz hmin hanti
    rw [sortOrd]
    cases hsx : sortOrd le xs with
    | nil =>
      cases xs with
      | nil =>
        simp only [List.mem_singleton] at hz
        rw [insertOrd, hz]
        rfl
      | cons w ws =>
        exfalso
        have : w ∈ sortOrd le (w :: ws) := (mem_sortOrd le w _).mpr (by simp)
        rw [hsx] at this
        simp at this
    | cons y ys =>
      have hyxs : y ∈ xs := by
        have : y ∈ sortOrd le xs := by rw [hsx]; simp
        exact (mem_sortOrd le y xs).mp this
      rcases List.mem_cons.mp hz with hzx | hzxs
      · -- z is the head element x
        have hxy : le x y = true := by
          rw [← hzx] at *
          exact hmin y (List.mem_cons_of_mem _ hyxs)
        rw [insertOrd, if_pos hxy, ← hzx]
        rfl
      · -- z occurs in the tail; the sorted tail starts with z
        have hy : y = z := by
          have := ih hzxs (fun w hw => hmin w (List.mem_cons_of_mem _ hw))
            (fun w hw hle => hanti w (List.mem_cons_of_mem _ hw) hle)
          rw [hsx] at this
          simpa using this
        by_cases hxy : le x y = true
        · have hxz : x = z := hanti x (by simp) (by rw [← hy]; exact hxy)
          rw [insertOrd, if_pos hxy, hxz]
          rfl
        · rw [insertOrd, if_neg hxy, hy]
          rfl

lemma lexLe_replicate_zero_left : ∀ y : List ℕ, lexLe (List.replicate y.length 0) y = true := by
  intro y
  induction y with
  | nil => rfl
  | cons b ys ih =>
    rw [List.length_cons, List.replicate_succ, lexLe]
    rcases Nat.eq_zero_or_pos b with hb | hb
    · rw [hb]
      simpa using ih
    · rw [if_pos hb]

lemma lexLe_replicate_zero_right :
    ∀ y : List ℕ, lexLe y (List.replicate y.length 0) = true → y = List.replicate y.length 0 := by
  intro y
  induction y with
  | nil => intro _; rfl
  | cons b ys ih =>
    intro h
    rw [List.length_cons, List.replicate_succ, lexLe] at h
    rcases Nat.eq_zero_or_pos b with hb | hb
    · subst hb
      simp only [Nat.lt_irrefl, if_false] at h
      rw [List.length_cons, List.replicate_succ]
      have := ih (by simpa using h)
      rw [← this]
    · rw [if_neg (by omega), if_pos hb] at h
      exact absurd h (by simp)

lemma sum_zero_eq_replicate (y : List ℕ) (h : y.sum = 0) : y = List.replicate y.length 0 := by
  induction y with
  | nil => rfl
  | cons b ys ih =>
    rw [List.sum_cons] at h
    have hb : b = 0 := by omega
    have hs : ys.sum = 0 := by omega
    rw [List.length_cons, List.replicate_succ, hb, ← ih hs]

lemma sum_replicate_zero (n : ℕ) : (List.replicate n (0 : ℕ)).sum = 0 := by
  simp

lemma idxLe_zero_left (g r : Bool) (dim : ℕ) (y : List ℕ) (hy : y.length = dim) :
    idxLe g r (List.replicate dim 0) y = true := by
  have hlex : lexLe (List.replicate dim 0) y = true := by
    rw [← hy]
    exact lexLe_replicate_zero_left y
  have hlexr : lexLe (List.replicate dim 0) y.reverse = true := by
    have h2 : y.reverse.length = dim := by rw [List.length_reverse, hy]
    rw [← h2]
    exact lexLe_replicate_zero_left y.reverse
  rcases Nat.eq_zero_or_pos y.sum with hs | hs
  · cases g <;> cases r <;>
      simp [idxLe, sum_replicate_zero, hs, hlex, hlexr, List.reverse_replicate]
  · cases g <;> cases r <;>
      simp [idxLe, sum_replicate_zero, hs, hlex, hlexr, List.reverse_replicate]

lemma idxLe_zero_right (g r : Bool) (dim : ℕ) (y : List ℕ) (hy : y.length = dim)
    (h : idxLe g r y (List.replicate dim 0) = true) : y = List.replicate dim 0 := by
  have hfromlex : lexLe y (List.replicate dim 0) = true → y = List.replicate dim 0 := by
    intro hl
    have h1 : lexLe y (List.replicate y.length 0) = true := by rw [hy]; exact hl
    have h2 := lexLe_replicate_zero_right y h1
    rw [hy] at h2
    exact h2
  have hfromlexr : lexLe y.reverse (List.replicate dim 0) = true → y = List.replicate dim 0 := by
    intro hl
    have hlen : y.reverse.length = dim := by rw [List.length_reverse, hy]
    have h1 : lexLe y.reverse (List.replicate y.reverse.length 0) = true := by
      rw [hlen]; exact hl
    have h2 := lexLe_replicate_zero_right y.reverse h1
    rw [hlen] at h2
    have h3 : y = (List.replicate dim 0).reverse := by
      rw [← h2, List.reverse_reverse]
    rw [List.reverse_replicate] at h3
    exact h3
  rcases Nat.eq_zero_or_pos y.sum with hs | hs
  · have h4 := sum_zero_eq_replicate y hs
    rw [hy] at h4
    exact h4
  · cases g with
    | true =>
      exfalso
      simp [idxLe, sum_replicate_zero, hs] at h
    | false =>
      cases r with
      | false => exact hfromlex (by simpa [idxLe, List.reverse_replicate] using h)
      | true => exact hfromlexr (by simpa [idxLe, List.reverse_replicate] using h)

/-- The first entry of the (spec-modelled) degree-sorted enumeration is the
all-zero multi-index, for every toggle setting. -/
lemma glexindexModel_head (upper dim : ℕ) (g r : Bool) (hu : 1 ≤ upper) :
    (glexindexModel upper dim g r).head? = some (List.replicate dim 0) := by
  apply sortOrd_head_min
  · rw [List.mem_flatMap]
    exact ⟨0, by rw [List.mem_range]; omega, by rw [compositionsAux_zero]; simp⟩
  · intro y hy
    rw [List.mem_flatMap] at hy
    obtain ⟨t, _, hyt⟩ := hy
    exact idxLe_zero_left g r dim y (length_of_mem_compositionsAux dim t y hyt)
  · intro y hy
    rw [List.mem_flatMap] at hy
    obtain ⟨t, _, hyt⟩ := hy
    exact idxLe_zero_right g r dim y (length_of_mem_compositionsAux dim t y hyt)

/-! ## The `size == 1` paths -/

lemma getD_replicate_zero (dim t : ℕ) : (List.replicate dim (0 : ℕ)).getD t 0 = 0 := by
  rw [List.getD_eq_getElem?_getD, List.getElem?_replicate]
  by_cases h : t < dim
  · rw [if_pos h]
    rfl
  · rw [if_neg h]
    rfl

/-- With a single point, the selected exponent set is the single all-zero
multi-index (for every toggle setting). -/
lemma lagrangeIndices_size_one (dim : ℕ) (g r : Bool) :
    lagrangeIndices dim 1 g r = fun _ _ => 0 := by
  funext j k
  rw [lagrangeIndices]
  obtain ⟨rest, hrest⟩ : ∃ rest, glexindexModel (selectOrder dim 1 + 1) dim g r
      = List.replicate dim 0 :: rest := by
    have hh := glexindexModel_head (selectOrder dim 1 + 1) dim g r (by omega)
    cases hli : glexindexModel (selectOrder dim 1 + 1) dim g r with
    | nil => rw [hli] at hh; exact absurd hh (by simp)
    | cons a l =>
      rw [hli] at hh
      simp only [List.head?_cons, Option.some.injEq] at hh
      exact ⟨l, by rw [hh]⟩
  rw [hrest]
  have hj : j.val = 0 := by omega
  rw [hj, List.take_succ_cons, List.take_zero, List.getD_cons_zero, getD_replicate_zero]

/-- With a single point the Vandermonde matrix is `[[1.0]]` (every coordinate
raised to the power 0 gives 1, including a zero coordinate). -/
lemma vandermonde_size_one (dim : ℕ) (A : Fin dim → Fin 1 → ℚ) (g r : Bool) :
    vandermonde dim 1 A (lagrangeIndices dim 1 g r) = fun _ _ => 1 := by
  funext i j
  rw [vandermonde, lagrangeIndices_size_one]
  simp [abscissasT]

lemma det_vandermonde_size_one (dim : ℕ) (A : Fin dim → Fin 1 → ℚ) (g r : Bool) :
    (vandermonde dim 1 A (lagrangeIndices dim 1 g r)).det = 1 := by
  rw [vandermonde_size_one, Matrix.det_fin_one]

/-- `size == 1`, `dim == 1`: the result is the degree-0 monomial scaled by the
single abscissa value. -/
lemma lagrange_dim_one_size_one (A : Fin 1 → Fin 1 → ℚ) (g r : Bool) :
    lagrange_polynomial 1 1 A g r = .ok [polyScale (A 0 0) (constBasis 1)] := by
  rw [lagrange_polynomial]
  rw [if_neg (by rw [det_vandermonde_size_one]; norm_num)]
  rw [dif_pos rfl, dif_pos rfl]
  rfl

/-- `size == 1`, `dim ≠ 1`: `abscissas.item()` fails (the array has more than
one element), so the function raises before producing any output. -/
lemma lagrange_size_one_dim_ne (dim : ℕ) (hd : dim ≠ 1) (A : Fin dim → Fin 1 → ℚ)
    (g r : Bool) :
    lagrange_polynomial dim 1 A g r = .error .scalarConversion := by
  rw [lagrange_polynomial]
  rw [if_neg (by rw [det_vandermonde_size_one]; norm_num)]
  rw [dif_pos rfl, dif_neg hd]

lemma evalPoly_constBasis (dim : ℕ) (x : Fin dim → ℚ) :
    evalPoly (constBasis dim) x = 1 := by
  simp [constBasis, evalPoly]

/-! ## The singular error is raised exactly on a zero determinant -/

lemma lagrange_singular_iff (dim size : ℕ) (A : Fin dim → Fin size → ℚ) (g r : Bool) :
    lagrange_polynomial dim size A g r = .error .singular ↔
      (vandermonde dim size A (lagrangeIndices dim size g r)).det = 0 := by
  rw [lagrange_polynomial]
  by_cases hdet : (vandermonde dim size A (lagrangeIndices dim size g r)).det = 0
  · rw [if_pos hdet]
    simp [hdet]
  · rw [if_neg hdet]
    constructor
    · intro h
      exfalso
      by_cases h1 : size = 1
      · rw [dif_pos h1] at h
        by_cases hd : dim = 1
        · rw [dif_pos hd] at h
          exact absurd h (by simp)
        · rw [dif_neg hd] at h
          simp at h
      · rw [dif_neg h1] at h
        exact absurd h (by simp)
    · intro h
      exact absurd h hdet

/-! ## Claim theorems -/

/-- Claim C1 (counterexample): the delta property fails at `size == 1`.
`lagrange_polynomial([5])` succeeds (the determinant is 1), yet evaluating its
single output polynomial at its own point yields 5, not 1. -/
theorem C1_counterexample :
    (lagrange_polynomial 1 1 (fun _ _ => (5 : ℚ)) true true).toOption ≠ none ∧
      evalPoly ((lagrangeOut 1 1 (fun _ _ => (5 : ℚ)) true true).getD 0 [])
        (fun _ => (5 : ℚ)) ≠ 1 := by
  have h := lagrange_dim_one_size_one (fun _ _ => (5 : ℚ)) true true
  constructor
  · rw [h]
    simp [Except.toOption]
  · rw [lagrangeOut_of_ok _ _ _ _ h, List.getD_cons_zero, evalPoly_polyScale,
      evalPoly_constBasis]
    norm_num

/-- Claim C1 (amended): for every abscissa array with `size ≥ 2` on which
`lagrange_polynomial` succeeds (non-zero Vandermonde determinant), it returns
exactly `size` polynomials and evaluating the `i`-th at the `j`-th point
yields 1 when `i = j` and 0 otherwise. -/
theorem C1_delta_property (dim size : ℕ) (A : Fin dim → Fin size → ℚ) (g r : Bool)
    (h2 : 2 ≤ size)
    (hdet : (vandermonde dim size A (lagrangeIndices dim size g r)).det ≠ 0) :
    (lagrange_polynomial dim size A g r).toOption = some (lagrangeOut dim size A g r) ∧
      (lagrangeOut dim size A g r).length = size ∧
      ∀ i j : Fin size,
        evalPoly ((lagrangeOut dim size A g r).getD i.val []) (fun k => A k j)
          = if i = j then 1 else 0 := by
  refine ⟨?_, ?_, fun i j => lagrange_delta A g r h2 hdet i j⟩
  · rw [lagrangeOut_of_ok A g r _ (lagrange_ok_of A g r h2 hdet),
      lagrange_ok_of A g r h2 hdet]
    rfl
  · rw [lagrangeOut_of_ok A g r _ (lagrange_ok_of A g r h2 hdet), assemble_length]

/-- Witness for C1 at the docstring's points `-1, 0, 1`. -/
theorem C1_delta_property_witness :
    2 ≤ 3 ∧
      (vandermonde 1 3 ptsThree (lagrangeIndices 1 3 true true)).det ≠ 0 ∧
      evalPoly ((lagrangeOut 1 3 ptsThree true true).getD (0 : Fin 3).val [])
          (fun k => ptsThree k 1)
        = if (0 : Fin 3) = 1 then 1 else 0 := by
  have hidx : lagrangeIndices 1 3 true true = fun j _ => j.val := by decide
  have hdet : (vandermonde 1 3 ptsThree (lagrangeIndices 1 3 true true)).det ≠ 0 := by
    rw [hidx, Matrix.det_fin_three]
    norm_num [vandermonde, abscissasT, ptsThree, Fin.prod_univ_one]
  exact ⟨by omega, hdet, (C1_delta_property 1 3 ptsThree true true (by omega) hdet).2.2 0 1⟩

/-- Claim C2: for `size ≥ 3` and a non-singular matrix, the cyclic-roll
cofactor scheme divided by the determinant equals `det⁻¹ • adjugate`, i.e. the
matrix inverse, and each accumulated cell equals the textbook adjugate entry
(the `(-1)^(i+j)` checkerboard cofactor expansion). -/
theorem C2_scheme_is_inverse (n : ℕ) (hn : 3 ≤ n) (M : Matrix (Fin n) (Fin n) ℚ)
    (hdet : M.det ≠ 0) :
    schemeCoeffsDiv n M = (M.det)⁻¹ • M.adjugate ∧
      schemeCoeffsDiv n M = M⁻¹ ∧
      ∀ i j, schemeCoeffs n M i j = M.adjugate i j := by
  have h1 : schemeCoeffsDiv n M = (M.det)⁻¹ • M.adjugate :=
    schemeCoeffsDiv_eq_smul_adjugate (by omega) M
  refine ⟨h1, ?_, fun i j => ?_⟩
  · rw [h1, Matrix.inv_def, Ring.inverse_eq_inv]
  · obtain ⟨m, rfl⟩ : ∃ m, n = m + 2 := ⟨n - 2, by omega⟩
    exact scheme_eq_adjugate M i j

/-- Witness for C2 at a concrete invertible 3×3 matrix. -/
theorem C2_scheme_is_inverse_witness :
    3 ≤ 3 ∧ mPhase.det ≠ 0 ∧
      (schemeCoeffsDiv 3 mPhase = (mPhase.det)⁻¹ • mPhase.adjugate ∧
        schemeCoeffsDiv 3 mPhase = mPhase⁻¹ ∧
        ∀ i j, schemeCoeffs 3 mPhase i j = mPhase.adjugate i j) := by
  have hdet : mPhase.det ≠ 0 := by
    norm_num [mPhase, Matrix.det_fin_three]
  exact ⟨by omega, hdet, C2_scheme_is_inverse 3 (by omega) mPhase hdet⟩

/-- Claim C3: in the `size ≥ 3` scheme each cell's accumulated contribution is
`+det(minor)` when the running flag `k` is even, `-det(minor)` when `k` is odd
and `size` is even, and `+det(minor)` when `k` is odd and `size` is odd, the
minor being the trailing submatrix of the current rolled working matrix. -/
theorem C3_cell_contribution (n : ℕ) (hn : 3 ≤ n) (M : Matrix (Fin n) (Fin n) ℚ)
    (i j : Fin n) :
    schemeCoeffs n M i j =
      (if (cellsRun n i.val j.val { phasesRun n M i.val with k := kInit i.val }).k % 2 = 0
       then (trailingMinor
          (cellsRun n i.val j.val { phasesRun n M i.val with k := kInit i.val }).mat).det
       else if n % 2 = 0
       then -(trailingMinor
          (cellsRun n i.val j.val { phasesRun n M i.val with k := kInit i.val }).mat).det
       else (trailingMinor
          (cellsRun n i.val j.val { phasesRun n M i.val with k := kInit i.val }).mat).det) := by
  rw [schemeCoeffs_closed]
  rw [cellsRun_k, cellsRun_mat]
  show contribAt n (kInit i.val + j.val) (rollRows^[j.val] (rollCols^[i.val] M)) = _
  rw [contribAt, phasesRun_mat]

/-- Witness for C3 at a concrete matrix and cell. -/
theorem C3_cell_contribution_witness :
    3 ≤ 3 ∧
      schemeCoeffs 3 mPhase 0 1 =
        (if (cellsRun 3 (0 : Fin 3).val (1 : Fin 3).val
              { phasesRun 3 mPhase (0 : Fin 3).val with k := kInit (0 : Fin 3).val }).k % 2 = 0
         then (trailingMinor
            (cellsRun 3 (0 : Fin 3).val (1 : Fin 3).val
              { phasesRun 3 mPhase (0 : Fin 3).val with k := kInit (0 : Fin 3).val }).mat).det
         else if 3 % 2 = 0
         then -(trailingMinor
            (cellsRun 3 (0 : Fin 3).val (1 : Fin 3).val
              { phasesRun 3 mPhase (0 : Fin 3).val with k := kInit (0 : Fin 3).val }).mat).det
         else (trailingMinor
            (cellsRun 3 (0 : Fin 3).val (1 : Fin 3).val
              { phasesRun 3 mPhase (0 : Fin 3).val with k := kInit (0 : Fin 3).val }).mat).det) :=
  ⟨by omega, C3_cell_contribution 3 (by omega) mPhase 0 1⟩

/-- Claim C4 (counterexample): after one full row-phase the working matrix is
the original with only the columns rolled, not rows-and-columns rolled as the
claim describes. -/
theorem C4_counterexample : (phasesRun 3 mDistinct 1).mat ≠ specPhaseRoll mDistinct := by
  decide

/-- Claim C4 (amended): the rows are rolled up by one after each cell (so `j`
cells into a phase the rows are rolled `j` times, and they realign after the
full pass), and the columns are rolled by one after each completed phase. -/
theorem C4_roll_schedule (n : ℕ) (M : Matrix (Fin n) (Fin n) ℚ) (i j : ℕ) :
    (cellsRun n i j { phasesRun n M i with k := kInit i }).mat
        = rollRows^[j] ((phasesRun n M i).mat) ∧
      (phasesRun n M i).mat = rollCols^[i] M :=
  ⟨cellsRun_mat i j _, phasesRun_mat M i⟩

/-- Claim C5: the singular-configuration error is raised exactly when the
Vandermonde determinant is zero, and any raise produces no output at all. -/
theorem C5_singular_iff (dim size : ℕ) (A : Fin dim → Fin size → ℚ) (g r : Bool) :
    (lagrange_polynomial dim size A g r = .error .singular ↔
      (vandermonde dim size A (lagrangeIndices dim size g r)).det = 0) ∧
      ∀ e, lagrange_polynomial dim size A g r = .error e →
        (lagrange_polynomial dim size A g r).toOption = none := by
  refine ⟨lagrange_singular_iff dim size A g r, fun e h => ?_⟩
  rw [h]
  rfl

/-- Claim C6 (counterexample): with `size == 1` and `dim == 2` the scalar
conversion `abscissas.item()` fails, so no constant polynomial is returned. -/
theorem C6_counterexample :
    lagrange_polynomial 2 1 (fun r _ => if r.val = 0 then (5 : ℚ) else 7) true true
      = .error .scalarConversion :=
  lagrange_size_one_dim_ne 2 (by omega) _ true true

/-- Claim C6 (amended): for `dim == 1`, `size == 1`, the function returns one
constant polynomial equal to the point's value (e.g. `lagrange([5])` is the
constant 5); for `dim ≥ 2` the scalar-conversion step fails instead. -/
theorem C6_size_one (A : Fin 1 → Fin 1 → ℚ) (g r : Bool) :
    lagrange_polynomial 1 1 A g r = .ok [polyScale (A 0 0) (constBasis 1)] ∧
      (lagrangeOut 1 1 A g r).length = 1 ∧
      ∀ pt : Fin 1 → ℚ, evalPoly ((lagrangeOut 1 1 A g r).getD 0 []) pt = A 0 0 := by
  have h := lagrange_dim_one_size_one A g r
  refine ⟨h, ?_, fun pt => ?_⟩
  · rw [lagrangeOut_of_ok _ _ _ _ h]
    rfl
  · rw [lagrangeOut_of_ok _ _ _ _ h, List.getD_cons_zero, evalPoly_polyScale,
      evalPoly_constBasis]
    ring

/-- Claim C7: the Vandermonde entry `(i, j)` is the product over dimensions
`k` of `abscissas[k, i] ** exponent_set[j][k]`, for all `i, j`. -/
theorem C7_vandermonde_entry (dim size : ℕ) (A : Fin dim → Fin size → ℚ)
    (idx : Fin size → Fin dim → ℕ) (i j : Fin size) :
    vandermonde dim size A idx i j = ∏ k : Fin dim, A k i ^ idx j k := rfl

lemma evalPoly_rowAssemble {dim size : ℕ} (vec : Fin size → Poly dim)
    (coeffs : Matrix (Fin size) (Fin size) ℚ) (i : Fin size) (x : Fin dim → ℚ) :
    evalPoly ((rowAssemble dim size vec coeffs).getD i.val []) x
      = ∑ j : Fin size, evalPoly (vec j) x * coeffs i j := by
  have hget : (rowAssemble dim size vec coeffs).getD i.val []
      = ((List.finRange size).map fun j => polyScale (coeffs i j) (vec j)).flatten := by
    rw [rowAssemble, List.getD_eq_getElem?_getD, List.getElem?_ofFn]
    simp [List.ofFnNthVal, i.isLt]
  rw [hget, evalPoly_flatten, List.map_map, ← Fin.sum_univ_def]
  refine Finset.sum_congr rfl fun j _ => ?_
  simp [evalPoly_polyScale]

/-- Claim C8 (counterexample): with the non-symmetric coefficient matrix
`[[1,2],[3,4]]` the assembled polynomial differs from the row-weighted sum the
claim describes (4 versus 3 at the evaluation point 1). -/
theorem C8_counterexample :
    evalPoly ((assemble 1 2 (basisVec 1 2 (fun j _ => j.val)) !![1, 2; 3, 4]).getD
        (0 : Fin 2).val []) (fun _ => (1 : ℚ))
      ≠ evalPoly ((rowAssemble 1 2 (basisVec 1 2 (fun j _ => j.val)) !![1, 2; 3, 4]).getD
        (0 : Fin 2).val []) (fun _ => (1 : ℚ)) := by
  rw [evalPoly_assemble, evalPoly_rowAssemble, Fin.sum_univ_two, Fin.sum_univ_two]
  norm_num [evalPoly_basisVec, Fin.prod_univ_one]

/-- Claim C8 (amended): the `i`-th output polynomial is the sum over `j` of
`basis[j] * coefficient_matrix[j, i]` — the weights come from column `i`
(the transpose relationship). -/
theorem C8_assemble_transpose (dim size : ℕ) (vec : Fin size → Poly dim)
    (coeffs : Matrix (Fin size) (Fin size) ℚ) (i : Fin size) (x : Fin dim → ℚ) :
    evalPoly ((assemble dim size vec coeffs).getD i.val []) x
      = ∑ j : Fin size, evalPoly (vec j) x * coeffs j i :=
  evalPoly_assemble vec coeffs i x

/-- Claim C9: for `dim ≥ 1` and `size ≥ 1` the order-selection loop terminates
and selects the least `order ≥ 1` with `C(order+dim, dim) ≥ size`. -/
theorem C9_order_selection (dim size : ℕ) (hd : 1 ≤ dim) (hs : 1 ≤ size) :
    1 ≤ selectOrder dim size ∧
      size ≤ Nat.choose (selectOrder dim size + dim) dim ∧
      ∀ o, 1 ≤ o → size ≤ Nat.choose (o + dim) dim → selectOrder dim size ≤ o :=
  selectOrder_correct dim size hd

/-- Witness for C9: `dim = 2`, `size = 5` selects order 2. -/
theorem C9_order_selection_witness :
    1 ≤ 2 ∧ 1 ≤ 5 ∧ selectOrder 2 5 = 2 ∧
      (1 ≤ selectOrder 2 5 ∧
        5 ≤ Nat.choose (selectOrder 2 5 + 2) 2 ∧
        ∀ o, 1 ≤ o → 5 ≤ Nat.choose (o + 2) 2 → selectOrder 2 5 ≤ o) :=
  ⟨by omega, by omega, by decide, C9_order_selection 2 5 (by omega) (by omega)⟩

/-- Claim C10: for `size == 1` inputs the singular branch is unreachable: the
truncated exponent set is the single all-zero multi-index, the 1×1 Vandermonde
matrix is `[[1.0]]` (a zero coordinate raised to the power 0 also gives 1),
and its determinant is 1, never zero. -/
theorem C10_size_one_never_singular (dim : ℕ) (A : Fin dim → Fin 1 → ℚ) (g r : Bool) :
    (lagrangeIndices dim 1 g r = fun _ _ => 0) ∧
      vandermonde dim 1 A (lagrangeIndices dim 1 g r) = (fun _ _ => 1) ∧
      (vandermonde dim 1 A (lagrangeIndices dim 1 g r)).det = 1 ∧
      lagrange_polynomial dim 1 A g r ≠ .error .singular := by
  refine ⟨lagrangeIndices_size_one dim g r, vandermonde_size_one dim A g r,
    det_vandermonde_size_one dim A g r, fun h => ?_⟩
  rw [lagrange_singular_iff, det_vandermonde_size_one] at h
  exact absurd h (by norm_num)

end Chaospy
